import Mathlib

/-!
# Verification of the jank-rank interactive merge sort engine

This file gives a shallow embedding of the merge-sort engine implemented in
`src/useMergeSort.ts` (the canonical engine) and of the structurally similar
reimplementation found in the unnamed variant source file, and proves the
specified properties about them.

The source is a set of React hooks.  The engine's progress lives entirely in a
`MergeSortState` record; all work is performed by `useEffect` blocks whose
guards are mutually exclusive, so between two external decisions the engine
evolves by a deterministic sequence of effect firings.  We model one React
commit as one application of a step function; iterating the step function
replays the engine's demand-driven execution.  External decisions are modelled
by an oracle `Nat → T → T → Bool` giving the answer to the i-th decision
request (`true` = selectA, `false` = selectB), so an arbitrary sequence of
answers is representable.  The `Nat` component threaded next to the state
counts the decisions applied so far; it instruments the run (the source
exposes the same observation point through `onSelectionMade`) and never
influences which transition fires.
-/

namespace JankRank

/-- The `MergeSortState<T>` record from `useMergeSort.ts`.  The `prompt` field
holds the data of the current `Prompt<T>` (`optionA`, `optionB`); the
`selectA`/`selectB` closures are modelled by `applyDecision` below. -/
structure MergeSortState (T : Type) where
  result : Option (List T)
  consideredLists : Option (List T × List T)
  moreLists : List (List T)
  mergedLists : List (List T)
  mergedList : List T
  prompt : Option (T × T)
deriving DecidableEq, Repr

variable {T : Type}

/-- The initial reducer state of `useMergeSort`: every field empty/undefined. -/
def emptyState : MergeSortState T :=
  { result := none, consideredLists := none, moreLists := [], mergedLists := [],
    mergedList := [], prompt := none }

/-- The initialization effect of `useMergeSort` (no caller-supplied initial
state): an empty array short-circuits to `result = []`; otherwise `moreLists`
becomes one singleton list per element. -/
def initMergeSort (array : List T) : MergeSortState T :=
  if array.length = 0 then
    { emptyState with result := some [] }
  else
    { emptyState with result := none, moreLists := array.map (fun v => [v]) }

/-- `useMergeSort` when a caller-supplied `initialState` may be present: the
initialization effect returns early when `initialState` is given, so the input
array is not re-partitioned and the reducer starts from the supplied state. -/
def initMergeSortWith (array : List T) (initialState : Option (MergeSortState T)) :
    MergeSortState T :=
  match initialState with
  | some s => s
  | none => initMergeSort array

/-- The `useConsideredLists` effect: when no pair is under consideration and
lists remain in the current pass, pull the first two as the new considered
pair; a lone leftover list is promoted directly to `mergedLists`.  Returns
`none` when the effect's guard does not hold (the effect does not fire). -/
def consideredListsEffect (s : MergeSortState T) : Option (MergeSortState T) :=
  match s.consideredLists, s.moreLists with
  | some _, _ => none
  | none, [] => none
  | none, [a] =>
    some { s with moreLists := [], mergedLists := s.mergedLists ++ [a] }
  | none, a :: b :: rest =>
    some { s with moreLists := rest, consideredLists := some (a, b) }

/-- The `useMerger` effect: with a considered pair present and no outstanding
prompt, either issue a decision request from the two heads (both lists
non-empty), or flush the remainder of the non-exhausted list into the working
merged list, close out the pair and append the result to `mergedLists`. -/
def mergerEffect (s : MergeSortState T) : Option (MergeSortState T) :=
  match s.prompt with
  | some _ => none
  | none =>
    match s.consideredLists with
    | none => none
    | some (la, lb) =>
      match la, lb with
      | a :: _, b :: _ => some { s with prompt := some (a, b) }
      | _, _ =>
        let remainingList : List T :=
          match la with
          | _ :: _ => la
          | [] =>
            match lb with
            | _ :: _ => lb
            | [] => []
        some { s with
          mergedLists := s.mergedLists ++ [s.mergedList ++ remainingList],
          mergedList := [],
          consideredLists := none }

/-- The end-of-pass effect in `useMergeSortPass`: when no pair is under
consideration, the pass queue is empty and merged lists exist, either finalize
(single merged list spanning the whole input, `n` = input length) or promote
`mergedLists` to the next pass. -/
def passCompletionEffect (n : Nat) (s : MergeSortState T) : Option (MergeSortState T) :=
  match s.consideredLists, s.moreLists, s.mergedLists with
  | none, [], [l] =>
    if l.length = n then
      some { s with result := some l, moreLists := [], mergedLists := [] }
    else
      some { s with moreLists := [l], mergedLists := [] }
  | none, [], l :: ls =>
    some { s with moreLists := l :: ls, mergedLists := [] }
  | _, _, _ => none

/-- The `selectA`/`selectB` closures of the prompt built in `useMerger`
(`selection = true` for `selectA`): move the chosen head onto the working
merged list, drop it from its considered list, and clear the prompt.  While a
prompt is outstanding no effect guard holds, so the state the closures
captured is the current state. -/
def applyDecision (selection : Bool) (s : MergeSortState T) : MergeSortState T :=
  match s.prompt, s.consideredLists with
  | some (a, b), some (la, lb) =>
    if selection then
      { s with mergedList := s.mergedList ++ [a],
               consideredLists := some (la.tail, lb), prompt := none }
    else
      { s with mergedList := s.mergedList ++ [b],
               consideredLists := some (la, lb.tail), prompt := none }
  | _, _ => s

/-- Modelled from the spec: the §6 transition API `resolve(state, decision)`.
The source exposes resolution only through the `selectA`/`selectB` closures of
an outstanding `Prompt`; when no request is pending those closures do not
exist, so no resolution can occur and no state change is possible.  The spec
names this failure `InvariantViolation`; the successful branch is exactly the
source's closure transition `applyDecision`. -/
def resolve (s : MergeSortState T) (selection : Bool) :
    Except String (MergeSortState T) :=
  match s.prompt with
  | none => Except.error "InvariantViolation"
  | some _ => Except.ok (applyDecision selection s)

/-- One React commit of the canonical engine.  The three effect guards are
pairwise exclusive (they disagree on `consideredLists`/`moreLists`/`prompt`),
so at most one effect fires per commit; when none fires and a prompt is
outstanding, the pending decision (the `c`-th, answered by `ora`) is applied.
`n` is the length of the input array. -/
def stepMergeSort (ora : Nat → T → T → Bool) (n : Nat) :
    MergeSortState T × Nat → MergeSortState T × Nat
  | (s, c) =>
    match consideredListsEffect s with
    | some s' => (s', c)
    | none =>
      match mergerEffect s with
      | some s' => (s', c)
      | none =>
        match passCompletionEffect n s with
        | some s' => (s', c)
        | none =>
          match s.prompt with
          | some (a, b) => (applyDecision (ora c a b) s, c + 1)
          | none => (s, c)

/-- Iterate the canonical engine for `k` commits. -/
def runMergeSort (ora : Nat → T → T → Bool) (n : Nat) :
    Nat → MergeSortState T × Nat → MergeSortState T × Nat
  | 0, p => p
  | k + 1, p => runMergeSort ora n k (stepMergeSort ora n p)

/-- The multiset of all items currently held in a state, across `moreLists`,
`consideredLists`, `mergedList` and `mergedLists`. -/
def stateItems (s : MergeSortState T) : Multiset T :=
  (s.moreLists.flatten : Multiset T) +
    (match s.consideredLists with
     | some (la, lb) => (la : Multiset T) + (lb : Multiset T)
     | none => 0) +
    (s.mergedList : Multiset T) + (s.mergedLists.flatten : Multiset T)

/-- The undo stack of `useUndoableMergeSort`: the snapshot passed to
`onSelectionMade` is the state the prompt's closures captured, i.e. the
pre-decision state with no prompt, pushed when a decision is applied (head =
most recent). -/
def stepUndoable (ora : Nat → T → T → Bool) (n : Nat) :
    MergeSortState T × Nat × List (MergeSortState T) →
      MergeSortState T × Nat × List (MergeSortState T)
  | (s, c, states) =>
    match consideredListsEffect s with
    | some s' => (s', c, states)
    | none =>
      match mergerEffect s with
      | some s' => (s', c, states)
      | none =>
        match passCompletionEffect n s with
        | some s' => (s', c, states)
        | none =>
          match s.prompt with
          | some (a, b) =>
            (applyDecision (ora c a b) s, c + 1, { s with prompt := none } :: states)
          | none => (s, c, states)

/-- The `undo` callback of `useUndoableMergeSort`: pop the most recent
snapshot, if any, and replace the state with it, discarding any pending
prompt.  `none` models `undo` being unavailable on an empty stack. -/
def undoMergeSort (s : MergeSortState T) (states : List (MergeSortState T)) :
    Option (MergeSortState T × List (MergeSortState T)) :=
  match states with
  | [] => none
  | previousState :: rest => some ({ previousState with prompt := none }, rest)

/-! ## The variant engine (unnamed reimplementation)

The variant file's `useConsideredLists` and `usePrompt` compute exactly the
transitions of `consideredListsEffect` and `mergerEffect` (its working merged
list lives in a `useRef`, modelled by the `mergedList` field).  It differs in
pass completion: promotion (guarded by `!done`) moves `mergedLists` to
`moreLists` whenever the pass queue empties, and a separate finalize effect
sets `result` whenever `moreLists` is exactly one list spanning the input. -/

/-- The variant's promotion effect: when the sort is not done, the pass queue
is empty, no pair is under consideration and merged lists exist, start the
next pass. -/
def promotionEffect (s : MergeSortState T) : Option (MergeSortState T) :=
  match s.result, s.consideredLists, s.moreLists, s.mergedLists with
  | none, none, [], l :: ls =>
    some { s with moreLists := l :: ls, mergedLists := [] }
  | _, _, _, _ => none

/-- The variant's finalize effect: when `moreLists` consists of a single list
whose length equals the input length, the sort is complete. -/
def finalizeEffect (n : Nat) (s : MergeSortState T) : Option (MergeSortState T) :=
  match s.moreLists with
  | [l] => if l.length = n then some { s with result := some l } else none
  | _ => none

/-- One React commit of the variant engine.  The scheduler, merger and
promotion guards are pairwise exclusive; the finalize guard can hold in the
same commit as the scheduler's, and the two then update disjoint fields, so
the commit applies both (the finalize update is computed on the same
pre-commit snapshot both effects read).  A finalize firing that would not
change `result` re-fires no effect (its dependencies are unchanged). -/
def stepVariant [DecidableEq T] (ora : Nat → T → T → Bool) (n : Nat) :
    MergeSortState T × Nat → MergeSortState T × Nat
  | (s, c) =>
    let core : Option (MergeSortState T) :=
      match consideredListsEffect s with
      | some s' => some s'
      | none =>
        match mergerEffect s with
        | some s' => some s'
        | none => promotionEffect s
    match core, finalizeEffect n s with
    | some s', some sf => ({ s' with result := sf.result }, c)
    | some s', none => (s', c)
    | none, some sf =>
      if s.result = sf.result then
        match s.prompt with
        | some (a, b) => (applyDecision (ora c a b) s, c + 1)
        | none => (s, c)
      else ({ s with result := sf.result }, c)
    | none, none =>
      match s.prompt with
      | some (a, b) => (applyDecision (ora c a b) s, c + 1)
      | none => (s, c)

/-- Iterate the variant engine for `k` commits. -/
def runVariant [DecidableEq T] (ora : Nat → T → T → Bool) (n : Nat) :
    Nat → MergeSortState T × Nat → MergeSortState T × Nat
  | 0, p => p
  | k + 1, p => runVariant ora n k (stepVariant ora n p)

/-! ## Functional model

Both engines compute, pass by pass, the bottom-up merge sort below.  The
`Nat` argument is the index of the next decision request; the functions
return the next free index, so the difference counts the requests issued. -/

/-- Merge two lists, resolving the comparison of the two heads by asking the
oracle at the next request index; when one list is exhausted the remainder is
appended wholesale (no request). -/
def mergeIdx (ora : Nat → T → T → Bool) : Nat → List T → List T → List T × Nat
  | c, [], lb => (lb, c)
  | c, a :: la, [] => (a :: la, c)
  | c, a :: la, b :: lb =>
    if ora c a b then
      let r := mergeIdx ora (c + 1) la (b :: lb)
      (a :: r.1, r.2)
    else
      let r := mergeIdx ora (c + 1) (a :: la) lb
      (b :: r.1, r.2)
termination_by c la lb => la.length + lb.length

/-- One pass: merge adjacent pairs of lists; a lone trailing list survives to
the next pass unmerged. -/
def onePassIdx (ora : Nat → T → T → Bool) : Nat → List (List T) → List (List T) × Nat
  | c, [] => ([], c)
  | c, [l] => ([l], c)
  | c, la :: lb :: rest =>
    let m := mergeIdx ora c la lb
    let ms := onePassIdx ora m.2 rest
    (m.1 :: ms.1, ms.2)

/-- Run passes until a single list spanning the whole input (`n` items)
remains; `none` marks configurations from which the engines never finalize
(these do not arise from `initMergeSort`, where the total item count is
always `n`). -/
def passesIdx (ora : Nat → T → T → Bool) (n : Nat) (c : Nat) (ls : List (List T)) :
    Option (List T) × Nat :=
  let ls' := (onePassIdx ora c ls).1
  let j := (onePassIdx ora c ls).2
  if ls'.length = 1 then
    if ls'.headI.length = n then (some ls'.headI, j) else (none, j)
  else if h : ls'.length < ls.length then
    passesIdx ora n j ls'
  else (none, j)
termination_by ls.length


/-! ## Basic facts about iteration -/

theorem runMergeSort_add (ora : Nat → T → T → Bool) (n : Nat) (j k : Nat)
    (p : MergeSortState T × Nat) :
    runMergeSort ora n (j + k) p = runMergeSort ora n k (runMergeSort ora n j p) := by
  induction j generalizing p with
  | zero => simp [runMergeSort]
  | succ j ih =>
    have hjk : j + 1 + k = (j + k) + 1 := by omega
    rw [hjk]
    show runMergeSort ora n (j + k) (stepMergeSort ora n p) = _
    rw [ih]
    rfl

theorem runMergeSort_trans (ora : Nat → T → T → Bool) (n : Nat)
    {p q r : MergeSortState T × Nat} {k₁ k₂ : Nat}
    (h₁ : runMergeSort ora n k₁ p = q) (h₂ : runMergeSort ora n k₂ q = r) :
    runMergeSort ora n (k₁ + k₂) p = r := by
  rw [runMergeSort_add, h₁, h₂]

theorem runMergeSort_fix (ora : Nat → T → T → Bool) (n : Nat)
    (p : MergeSortState T × Nat) (h : stepMergeSort ora n p = p) (k : Nat) :
    runMergeSort ora n k p = p := by
  induction k with
  | zero => rfl
  | succ k ih =>
    show runMergeSort ora n k (stepMergeSort ora n p) = p
    rw [h, ih]

theorem runVariant_add [DecidableEq T] (ora : Nat → T → T → Bool) (n : Nat) (j k : Nat)
    (p : MergeSortState T × Nat) :
    runVariant ora n (j + k) p = runVariant ora n k (runVariant ora n j p) := by
  induction j generalizing p with
  | zero => simp [runVariant]
  | succ j ih =>
    have hjk : j + 1 + k = (j + k) + 1 := by omega
    rw [hjk]
    show runVariant ora n (j + k) (stepVariant ora n p) = _
    rw [ih]
    rfl

theorem runVariant_trans [DecidableEq T] (ora : Nat → T → T → Bool) (n : Nat)
    {p q r : MergeSortState T × Nat} {k₁ k₂ : Nat}
    (h₁ : runVariant ora n k₁ p = q) (h₂ : runVariant ora n k₂ q = r) :
    runVariant ora n (k₁ + k₂) p = r := by
  rw [runVariant_add, h₁, h₂]

theorem runVariant_fix [DecidableEq T] (ora : Nat → T → T → Bool) (n : Nat)
    (p : MergeSortState T × Nat) (h : stepVariant ora n p = p) (k : Nat) :
    runVariant ora n k p = p := by
  induction k with
  | zero => rfl
  | succ k ih =>
    show runVariant ora n k (stepVariant ora n p) = p
    rw [h, ih]

/-- A finished state (everything empty, whatever `result` holds) is a fixed
point of the canonical engine: no effect guard holds and no prompt is
outstanding. -/
theorem stepMergeSort_done (ora : Nat → T → T → Bool) (n : Nat)
    (r : Option (List T)) (c : Nat) :
    stepMergeSort ora n ({ emptyState with result := r }, c)
      = ({ emptyState with result := r }, c) := rfl

/-- Each commit can only increase the number of applied decisions. -/
theorem stepMergeSort_counter (ora : Nat → T → T → Bool) (n : Nat)
    (p : MergeSortState T × Nat) : p.2 ≤ (stepMergeSort ora n p).2 := by
  obtain ⟨s, c⟩ := p
  unfold stepMergeSort
  cases h1 : consideredListsEffect s with
  | some s1 => simp [h1]
  | none =>
    cases h2 : mergerEffect s with
    | some s2 => simp [h1, h2]
    | none =>
      cases h3 : passCompletionEffect n s with
      | some s3 => simp [h1, h2, h3]
      | none =>
        cases h4 : s.prompt with
        | none => simp [h1, h2, h3, h4]
        | some ab =>
          obtain ⟨a, b⟩ := ab
          simp [h1, h2, h3, h4]

theorem runMergeSort_counter (ora : Nat → T → T → Bool) (n : Nat) (k : Nat)
    (p : MergeSortState T × Nat) : p.2 ≤ (runMergeSort ora n k p).2 := by
  induction k generalizing p with
  | zero => exact le_refl _
  | succ k ih =>
    exact le_trans (stepMergeSort_counter ora n p) (ih (stepMergeSort ora n p))

/-! ## Facts about the functional model -/

theorem mergeIdx_perm (ora : Nat → T → T → Bool) (c : Nat) (la lb : List T) :
    (mergeIdx ora c la lb).1.Perm (la ++ lb) := by
  induction la generalizing lb c with
  | nil => simp [mergeIdx]
  | cons a la ih =>
    induction lb generalizing c with
    | nil => simp [mergeIdx]
    | cons b lb ihb =>
      by_cases hab : ora c a b = true
      · simp only [mergeIdx, hab, if_true]
        exact ((ih (c + 1) (b :: lb)).cons a).trans (by rfl)
      · simp only [mergeIdx, hab, if_false]
        refine ((ihb (c + 1)).cons b).trans ?_
        exact (List.perm_middle).symm

theorem mergeIdx_length (ora : Nat → T → T → Bool) (c : Nat) (la lb : List T) :
    (mergeIdx ora c la lb).1.length = la.length + lb.length := by
  have := (mergeIdx_perm ora c la lb).length_eq
  simpa using this

theorem onePassIdx_flatten_perm (ora : Nat → T → T → Bool) (c : Nat)
    (ls : List (List T)) :
    (onePassIdx ora c ls).1.flatten.Perm ls.flatten := by
  induction c, ls using onePassIdx.induct ora with
  | case1 c => simp [onePassIdx]
  | case2 c l => simp [onePassIdx]
  | case3 c la lb rest m ih =>
    simp only [onePassIdx, List.flatten_cons]
    exact ((mergeIdx_perm ora c la lb).append ih).trans (by simp)

theorem onePassIdx_length (ora : Nat → T → T → Bool) (c : Nat) (ls : List (List T)) :
    (onePassIdx ora c ls).1.length = (ls.length + 1) / 2 := by
  induction c, ls using onePassIdx.induct ora with
  | case1 c => simp [onePassIdx]
  | case2 c l => simp [onePassIdx]
  | case3 c la lb rest m ih =>
    have ih2 : (onePassIdx ora (mergeIdx ora c la lb).2 rest).1.length
        = (rest.length + 1) / 2 := ih
    simp only [onePassIdx, List.length_cons]
    omega

theorem onePassIdx_flatten_length (ora : Nat → T → T → Bool) (c : Nat)
    (ls : List (List T)) :
    (onePassIdx ora c ls).1.flatten.length = ls.flatten.length :=
  (onePassIdx_flatten_perm ora c ls).length_eq

theorem passesIdx_nil (ora : Nat → T → T → Bool) (n : Nat) (c : Nat) :
    passesIdx ora n c ([] : List (List T)) = (none, c) := by
  rw [passesIdx]
  simp [onePassIdx]

theorem passesIdx_single (ora : Nat → T → T → Bool) (n : Nat) (c : Nat) (l : List T) :
    passesIdx ora n c [l] = if l.length = n then (some l, c) else (none, c) := by
  rw [passesIdx]
  simp [onePassIdx]

theorem passesIdx_step (ora : Nat → T → T → Bool) (n : Nat) (c : Nat)
    (ls : List (List T)) (h2 : 2 ≤ ls.length) :
    passesIdx ora n c ls
      = passesIdx ora n (onePassIdx ora c ls).2 (onePassIdx ora c ls).1 := by
  rw [passesIdx]
  by_cases h1 : (onePassIdx ora c ls).1.length = 1
  · obtain ⟨l', hl'⟩ : ∃ l', (onePassIdx ora c ls).1 = [l'] :=
      List.length_eq_one.mp h1
    rw [hl', passesIdx_single]
    simp [h1, hl']
  · have hlt : (onePassIdx ora c ls).1.length < ls.length := by
      have := onePassIdx_length ora c ls
      omega
    simp [h1, hlt]

theorem mergeIdx_counter_le (ora : Nat → T → T → Bool) (c : Nat) (la lb : List T) :
    (mergeIdx ora c la lb).2 ≤ c + la.length + lb.length := by
  induction la generalizing lb c with
  | nil => simp [mergeIdx]
  | cons a la ih =>
    induction lb generalizing c with
    | nil => simp [mergeIdx]
    | cons b lb ihb =>
      by_cases hab : ora c a b = true
      · simp only [mergeIdx, hab, if_true]
        have := ih (c + 1) (b :: lb)
        simp only [List.length_cons] at this ⊢
        omega
      · simp [mergeIdx, hab]
        have := ihb (c + 1)
        simp only [List.length_cons] at this ⊢
        omega

theorem onePassIdx_counter_le (ora : Nat → T → T → Bool) (c : Nat)
    (ls : List (List T)) :
    (onePassIdx ora c ls).2 ≤ c + ls.flatten.length := by
  induction c, ls using onePassIdx.induct ora with
  | case1 c => simp [onePassIdx]
  | case2 c l => simp [onePassIdx]
  | case3 c la lb rest m ih =>
    have h1 := mergeIdx_counter_le ora c la lb
    have ih2 : (onePassIdx ora (mergeIdx ora c la lb).2 rest).2
        ≤ (mergeIdx ora c la lb).2 + rest.flatten.length := ih
    simp only [onePassIdx, List.flatten_cons, List.length_append]
    omega

theorem mergeIdx_counter_ge (ora : Nat → T → T → Bool) (c : Nat) (la lb : List T) :
    c ≤ (mergeIdx ora c la lb).2 := by
  induction la generalizing lb c with
  | nil => simp [mergeIdx]
  | cons a la ih =>
    induction lb generalizing c with
    | nil => simp [mergeIdx]
    | cons b lb ihb =>
      by_cases hab : ora c a b = true
      · simp only [mergeIdx, hab, if_true]
        have := ih (c + 1) (b :: lb)
        omega
      · simp only [Bool.not_eq_true] at hab
        simp [mergeIdx, hab]
        have := ihb (c + 1)
        omega

theorem passesIdx_counter_le (ora : Nat → T → T → Bool) (n : Nat) (c : Nat)
    (ls : List (List T)) (h : ls.flatten.length = n) :
    (passesIdx ora n c ls).2 ≤ c + n * Nat.clog 2 ls.length := by
  match hls : ls with
  | [] => simp [passesIdx_nil]
  | [l] =>
    rw [passesIdx_single]
    split <;> simp
  | l₁ :: l₂ :: rest =>
    have h2 : 2 ≤ (l₁ :: l₂ :: rest).length := by simp
    rw [passesIdx_step ora n c _ h2]
    have hflat : (onePassIdx ora c (l₁ :: l₂ :: rest)).1.flatten.length = n := by
      rw [onePassIdx_flatten_length]
      exact h
    have hlen : (onePassIdx ora c (l₁ :: l₂ :: rest)).1.length
        = ((l₁ :: l₂ :: rest).length + 1) / 2 := onePassIdx_length ora c _
    have hlt : (onePassIdx ora c (l₁ :: l₂ :: rest)).1.length
        < (l₁ :: l₂ :: rest).length := by
      simp only [List.length_cons] at hlen ⊢
      omega
    have hrec := passesIdx_counter_le ora n (onePassIdx ora c (l₁ :: l₂ :: rest)).2
      (onePassIdx ora c (l₁ :: l₂ :: rest)).1 hflat
    have hcnt : (onePassIdx ora c (l₁ :: l₂ :: rest)).2 ≤ c + n := by
      have := onePassIdx_counter_le ora c (l₁ :: l₂ :: rest)
      omega
    have hclog : Nat.clog 2 (l₁ :: l₂ :: rest).length
        = Nat.clog 2 (onePassIdx ora c (l₁ :: l₂ :: rest)).1.length + 1 := by
      rw [Nat.clog_of_two_le (by norm_num) h2, hlen]
      congr 1
    calc (passesIdx ora n (onePassIdx ora c (l₁ :: l₂ :: rest)).2
            (onePassIdx ora c (l₁ :: l₂ :: rest)).1).2
        ≤ (onePassIdx ora c (l₁ :: l₂ :: rest)).2
            + n * Nat.clog 2 (onePassIdx ora c (l₁ :: l₂ :: rest)).1.length := hrec
      _ ≤ c + n + n * Nat.clog 2 (onePassIdx ora c (l₁ :: l₂ :: rest)).1.length := by
          omega
      _ = c + n * Nat.clog 2 (l₁ :: l₂ :: rest).length := by
          rw [hclog]
          ring
termination_by ls.length
decreasing_by
  simp only [List.length_cons] at hlen ⊢
  omega

theorem passesIdx_isSome (ora : Nat → T → T → Bool) (n : Nat) (c : Nat)
    (ls : List (List T)) (hne : ls ≠ []) (h : ls.flatten.length = n) :
    ∃ L, (passesIdx ora n c ls).1 = some L := by
  match hls : ls with
  | [] => exact absurd rfl hne
  | [l] =>
    rw [passesIdx_single]
    have : l.length = n := by simpa using h
    simp [this]
  | l₁ :: l₂ :: rest =>
    have h2 : 2 ≤ (l₁ :: l₂ :: rest).length := by simp
    rw [passesIdx_step ora n c _ h2]
    have hlen := onePassIdx_length ora c (l₁ :: l₂ :: rest)
    refine passesIdx_isSome ora n _ _ ?_ ?_
    · have : 0 < (onePassIdx ora c (l₁ :: l₂ :: rest)).1.length := by
        simp only [List.length_cons] at hlen ⊢
        omega
      exact List.ne_nil_of_length_pos this
    · rw [onePassIdx_flatten_length]
      exact h
termination_by ls.length
decreasing_by
  simp only [List.length_cons] at hlen ⊢
  omega

theorem passesIdx_perm (ora : Nat → T → T → Bool) (n : Nat) (c : Nat)
    (ls : List (List T)) (L : List T) (h : (passesIdx ora n c ls).1 = some L) :
    L.Perm ls.flatten := by
  match hls : ls with
  | [] =>
    rw [passesIdx_nil] at h
    simp at h
  | [l] =>
    rw [passesIdx_single] at h
    by_cases hn : l.length = n
    · simp [hn] at h
      subst h
      simp
    · simp [hn] at h
  | l₁ :: l₂ :: rest =>
    have h2 : 2 ≤ (l₁ :: l₂ :: rest).length := by simp
    rw [passesIdx_step ora n c _ h2] at h
    have hlen := onePassIdx_length ora c (l₁ :: l₂ :: rest)
    have hrec := passesIdx_perm ora n (onePassIdx ora c (l₁ :: l₂ :: rest)).2
      (onePassIdx ora c (l₁ :: l₂ :: rest)).1 L h
    exact hrec.trans (onePassIdx_flatten_perm ora c _)
termination_by ls.length
decreasing_by
  simp only [List.length_cons] at hlen ⊢
  omega

/-- The order-consistent decision source of C1: answer each request by
choosing option A exactly when it is ranked no later than option B. -/
def leOracle [LinearOrder T] : Nat → T → T → Bool := fun _ a b => decide (a ≤ b)

theorem mergeIdx_sorted [LinearOrder T] :
    ∀ (c : Nat) (la lb : List T), la.Sorted (· ≤ ·) → lb.Sorted (· ≤ ·) →
      ((mergeIdx (leOracle (T := T)) c la lb).1).Sorted (· ≤ ·) := by
  intro c la
  induction la generalizing c with
  | nil =>
    intro lb _ hb
    simpa [mergeIdx] using hb
  | cons a la ih =>
    intro lb
    induction lb generalizing c with
    | nil =>
      intro ha _
      simpa [mergeIdx] using ha
    | cons b lb ihb =>
      intro ha hb
      by_cases hab : a ≤ b
      · simp only [mergeIdx, leOracle, hab, decide_True, if_true]
        rw [List.sorted_cons]
        refine ⟨?_, ih (c + 1) (b :: lb) ha.of_cons hb⟩
        intro x hx
        have hmem := (mergeIdx_perm (leOracle (T := T)) (c + 1) la (b :: lb)).mem_iff.mp hx
        rw [List.mem_append] at hmem
        rcases hmem with h | h
        · exact List.rel_of_sorted_cons ha x h
        · rcases List.mem_cons.mp h with rfl | h
          · exact hab
          · exact le_trans hab (List.rel_of_sorted_cons hb x h)
      · simp only [mergeIdx, leOracle, hab, decide_False, Bool.false_eq_true, if_false]
        have hba : b ≤ a := le_of_not_le hab
        rw [List.sorted_cons]
        refine ⟨?_, ihb (c + 1) ha hb.of_cons⟩
        intro x hx
        have hmem := (mergeIdx_perm (leOracle (T := T)) (c + 1) (a :: la) lb).mem_iff.mp hx
        rw [List.mem_append] at hmem
        rcases hmem with h | h
        · rcases List.mem_cons.mp h with rfl | h
          · exact hba
          · exact le_trans hba (List.rel_of_sorted_cons ha x h)
        · exact List.rel_of_sorted_cons hb x h

theorem onePassIdx_sorted [LinearOrder T] :
    ∀ (c : Nat) (ls : List (List T)), (∀ l ∈ ls, l.Sorted (· ≤ ·)) →
      ∀ l' ∈ (onePassIdx (leOracle (T := T)) c ls).1, l'.Sorted (· ≤ ·) := by
  intro c ls
  induction c, ls using onePassIdx.induct (leOracle (T := T)) with
  | case1 c =>
    intro _ l' hl'
    simp [onePassIdx] at hl'
  | case2 c l =>
    intro h l' hl'
    simp [onePassIdx] at hl'
    subst hl'
    exact h l' (by simp)
  | case3 c la lb rest m ih =>
    intro h l' hl'
    simp only [onePassIdx, List.mem_cons] at hl'
    rcases hl' with rfl | hl'
    · exact mergeIdx_sorted c la lb (h la (by simp)) (h lb (by simp))
    · exact ih (fun l hl => h l (by simp [hl])) l' hl'

theorem passesIdx_sorted [LinearOrder T] (n : Nat) (c : Nat)
    (ls : List (List T)) (L : List T) (hs : ∀ l ∈ ls, l.Sorted (· ≤ ·))
    (h : (passesIdx (leOracle (T := T)) n c ls).1 = some L) :
    L.Sorted (· ≤ ·) := by
  match hls : ls with
  | [] =>
    rw [passesIdx_nil] at h
    simp at h
  | [l] =>
    rw [passesIdx_single] at h
    by_cases hn : l.length = n
    · simp [hn] at h
      subst h
      exact hs _ (by simp)
    · simp [hn] at h
  | l₁ :: l₂ :: rest =>
    have h2 : 2 ≤ (l₁ :: l₂ :: rest).length := by simp
    rw [passesIdx_step _ n c _ h2] at h
    have hlen := onePassIdx_length (leOracle (T := T)) c (l₁ :: l₂ :: rest)
    exact passesIdx_sorted n (onePassIdx (leOracle (T := T)) c (l₁ :: l₂ :: rest)).2
      (onePassIdx (leOracle (T := T)) c (l₁ :: l₂ :: rest)).1 L
      (onePassIdx_sorted c (l₁ :: l₂ :: rest) hs) h
termination_by ls.length
decreasing_by
  simp only [List.length_cons] at hlen ⊢
  omega

/-! ## Canonical engine: execution traces

These lemmas replay the canonical engine commit by commit and identify the
result with the functional model. -/

theorem merge_run (ora : Nat → T → T → Bool) (n : Nat) :
    ∀ (la lb : List T) (res : Option (List T)) (ml gls : List (List T))
      (acc : List T) (c : Nat),
    ∃ k, runMergeSort ora n k
        ({ result := res, consideredLists := some (la, lb), moreLists := ml,
           mergedLists := gls, mergedList := acc, prompt := none }, c)
      = ({ result := res, consideredLists := none, moreLists := ml,
           mergedLists := gls ++ [acc ++ (mergeIdx ora c la lb).1],
           mergedList := [], prompt := none }, (mergeIdx ora c la lb).2) := by
  intro la
  induction la with
  | nil =>
    intro lb res ml gls acc c
    refine ⟨1, ?_⟩
    cases lb with
    | nil =>
      simp [runMergeSort, stepMergeSort, consideredListsEffect, mergerEffect, mergeIdx]
    | cons b lb =>
      simp [runMergeSort, stepMergeSort, consideredListsEffect, mergerEffect, mergeIdx]
  | cons a la ih =>
    intro lb
    induction lb with
    | nil =>
      intro res ml gls acc c
      refine ⟨1, ?_⟩
      simp [runMergeSort, stepMergeSort, consideredListsEffect, mergerEffect, mergeIdx]
    | cons b lb ihb =>
      intro res ml gls acc c
      have h1 : runMergeSort ora n 1
          ({ result := res, consideredLists := some (a :: la, b :: lb), moreLists := ml,
             mergedLists := gls, mergedList := acc, prompt := none }, c)
        = ({ result := res, consideredLists := some (a :: la, b :: lb), moreLists := ml,
             mergedLists := gls, mergedList := acc, prompt := some (a, b) }, c) := by
        simp [runMergeSort, stepMergeSort, consideredListsEffect, mergerEffect]
      by_cases hab : ora c a b = true
      · obtain ⟨k, hk⟩ := ih (b :: lb) res ml gls (acc ++ [a]) (c + 1)
        refine ⟨1 + (1 + k), ?_⟩
        refine runMergeSort_trans ora n h1 ?_
        have h2 : runMergeSort ora n 1
            ({ result := res, consideredLists := some (a :: la, b :: lb), moreLists := ml,
               mergedLists := gls, mergedList := acc, prompt := some (a, b) }, c)
          = ({ result := res, consideredLists := some (la, b :: lb), moreLists := ml,
               mergedLists := gls, mergedList := acc ++ [a], prompt := none }, c + 1) := by
          simp [runMergeSort, stepMergeSort, consideredListsEffect, mergerEffect,
            passCompletionEffect, applyDecision, hab]
        refine runMergeSort_trans ora n h2 ?_
        refine hk.trans ?_
        simp [mergeIdx, hab]
      · obtain ⟨k, hk⟩ := ihb res ml gls (acc ++ [b]) (c + 1)
        refine ⟨1 + (1 + k), ?_⟩
        refine runMergeSort_trans ora n h1 ?_
        have h2 : runMergeSort ora n 1
            ({ result := res, consideredLists := some (a :: la, b :: lb), moreLists := ml,
               mergedLists := gls, mergedList := acc, prompt := some (a, b) }, c)
          = ({ result := res, consideredLists := some (a :: la, lb), moreLists := ml,
               mergedLists := gls, mergedList := acc ++ [b], prompt := none }, c + 1) := by
          simp [runMergeSort, stepMergeSort, consideredListsEffect, mergerEffect,
            passCompletionEffect, applyDecision, hab]
        refine runMergeSort_trans ora n h2 ?_
        refine hk.trans ?_
        simp [mergeIdx, hab]

theorem pass_run (ora : Nat → T → T → Bool) (n : Nat) :
    ∀ (ls : List (List T)) (res : Option (List T)) (gls : List (List T)) (c : Nat),
    ∃ k, runMergeSort ora n k
        ({ result := res, consideredLists := none, moreLists := ls,
           mergedLists := gls, mergedList := [], prompt := none }, c)
      = ({ result := res, consideredLists := none, moreLists := [],
           mergedLists := gls ++ (onePassIdx ora c ls).1, mergedList := [],
           prompt := none }, (onePassIdx ora c ls).2)
  | [], res, gls, c => ⟨0, by simp [runMergeSort, onePassIdx]⟩
  | [l], res, gls, c => ⟨1, by
      simp [runMergeSort, stepMergeSort, consideredListsEffect, onePassIdx]⟩
  | la :: lb :: rest, res, gls, c => by
    have h1 : runMergeSort ora n 1
        ({ result := res, consideredLists := none, moreLists := la :: lb :: rest,
           mergedLists := gls, mergedList := [], prompt := none }, c)
      = ({ result := res, consideredLists := some (la, lb), moreLists := rest,
           mergedLists := gls, mergedList := [], prompt := none }, c) := by
      simp [runMergeSort, stepMergeSort, consideredListsEffect]
    obtain ⟨k₁, hk₁⟩ := merge_run ora n la lb res rest gls [] c
    obtain ⟨k₂, hk₂⟩ := pass_run ora n rest res
      (gls ++ [[] ++ (mergeIdx ora c la lb).1]) (mergeIdx ora c la lb).2
    refine ⟨1 + (k₁ + k₂),
      runMergeSort_trans ora n h1 (runMergeSort_trans ora n hk₁ (hk₂.trans ?_))⟩
    simp [onePassIdx, List.append_assoc]

theorem passes_run (ora : Nat → T → T → Bool) (n : Nat) :
    ∀ (ls : List (List T)), ls ≠ [] → ls.flatten.length = n →
    ∀ (res : Option (List T)) (c : Nat),
    ∃ k, runMergeSort ora n k
        ({ result := res, consideredLists := none, moreLists := ls,
           mergedLists := [], mergedList := [], prompt := none }, c)
      = ({ emptyState with result := (passesIdx ora n c ls).1 },
         (passesIdx ora n c ls).2)
  | [], hne, h, res, c => absurd rfl hne
  | [l], hne, h, res, c => by
    have hl : l.length = n := by simpa using h
    refine ⟨2, ?_⟩
    rw [passesIdx_single]
    simp [hl, runMergeSort, stepMergeSort, consideredListsEffect, mergerEffect,
      passCompletionEffect, emptyState]
  | l₁ :: l₂ :: rest, hne, h, res, c => by
    have h2 : 2 ≤ (l₁ :: l₂ :: rest).length := by simp
    have hlen := onePassIdx_length ora c (l₁ :: l₂ :: rest)
    have hflat : (onePassIdx ora c (l₁ :: l₂ :: rest)).1.flatten.length = n := by
      rw [onePassIdx_flatten_length]
      exact h
    obtain ⟨k₁, hk₁⟩ := pass_run ora n (l₁ :: l₂ :: rest) res [] c
    rw [passesIdx_step ora n c _ h2]
    rcases hsp : (onePassIdx ora c (l₁ :: l₂ :: rest)).1 with _ | ⟨l', _ | ⟨l'', rest'⟩⟩
    · rw [hsp] at hlen
      simp at hlen
      omega
    · have hl' : l'.length = n := by
        rw [hsp] at hflat
        simpa using hflat
      rw [hsp] at hk₁
      rw [passesIdx_single]
      refine ⟨k₁ + 1, runMergeSort_trans ora n hk₁ ?_⟩
      simp [hl', runMergeSort, stepMergeSort, consideredListsEffect, mergerEffect,
        passCompletionEffect, emptyState]
    · have hlt : (l' :: l'' :: rest').length < (l₁ :: l₂ :: rest).length := by
        rw [hsp] at hlen
        simp only [List.length_cons] at hlen ⊢
        omega
      rw [hsp] at hk₁ hflat
      obtain ⟨k₂, hk₂⟩ := passes_run ora n (l' :: l'' :: rest') (by simp) hflat res
        (onePassIdx ora c (l₁ :: l₂ :: rest)).2
      have h1 : runMergeSort ora n 1
          ({ result := res, consideredLists := none, moreLists := [],
             mergedLists := [] ++ l' :: l'' :: rest', mergedList := [],
             prompt := none }, (onePassIdx ora c (l₁ :: l₂ :: rest)).2)
        = ({ result := res, consideredLists := none, moreLists := l' :: l'' :: rest',
             mergedLists := [], mergedList := [],
             prompt := none }, (onePassIdx ora c (l₁ :: l₂ :: rest)).2) := by
        simp [runMergeSort, stepMergeSort, consideredListsEffect, mergerEffect,
          passCompletionEffect]
      exact ⟨k₁ + (1 + k₂),
        runMergeSort_trans ora n hk₁ (runMergeSort_trans ora n h1 hk₂)⟩
termination_by ls => ls.length
decreasing_by
  exact hlt

theorem flatten_map_singleton (items : List T) :
    (items.map (fun v => [v])).flatten = items := by
  induction items with
  | nil => simp
  | cons a items ih => simp [ih]

/-- Master run theorem for the canonical engine: from `initMergeSort` on a
non-empty input, the engine reaches the finished state whose `result` and
decision count are those of the functional model. -/
theorem runMergeSort_init (ora : Nat → T → T → Bool) (items : List T)
    (hne : items ≠ []) :
    ∃ k, runMergeSort ora items.length k (initMergeSort items, 0)
      = ({ emptyState with
            result := (passesIdx ora items.length 0 (items.map (fun v => [v]))).1 },
         (passesIdx ora items.length 0 (items.map (fun v => [v]))).2) := by
  have hne' : ¬items.length = 0 := fun h => hne (List.length_eq_zero.mp h)
  have hinit : initMergeSort items
      = { result := none, consideredLists := none,
          moreLists := items.map (fun v => [v]), mergedLists := [],
          mergedList := [], prompt := none } := by
    simp [initMergeSort, emptyState, hne']
  rw [hinit]
  exact passes_run ora items.length (items.map (fun v => [v]))
    (fun hmap => hne (by simpa using hmap))
    (by rw [flatten_map_singleton]) none 0

/-! ## Inversion lemmas for the individual transitions -/

theorem consideredListsEffect_result (s s' : MergeSortState T)
    (h : consideredListsEffect s = some s') : s'.result = s.result := by
  unfold consideredListsEffect at h
  split at h <;>
    first
      | exact Option.noConfusion h
      | (injection h with h; subst h; rfl)

theorem mergerEffect_result (s s' : MergeSortState T)
    (h : mergerEffect s = some s') : s'.result = s.result := by
  unfold mergerEffect at h
  split at h
  · exact Option.noConfusion h
  · split at h
    · exact Option.noConfusion h
    · split at h <;> (injection h with h; subst h; rfl)

theorem applyDecision_result (d : Bool) (s : MergeSortState T) :
    (applyDecision d s).result = s.result := by
  unfold applyDecision
  split
  · split <;> rfl
  · rfl

theorem passCompletionEffect_inv (n : Nat) (s s' : MergeSortState T)
    (h : passCompletionEffect n s = some s') :
    s.consideredLists = none ∧ s.moreLists = []
    ∧ ((∃ l, s.mergedLists = [l] ∧ l.length = n
          ∧ s' = { s with result := some l, moreLists := [], mergedLists := [] })
      ∨ (s'.result = s.result
          ∧ s' = { s with moreLists := s.mergedLists, mergedLists := [] })) := by
  unfold passCompletionEffect at h
  split at h
  · split at h
    · injection h with h
      subst h
      refine ⟨by assumption, by assumption, Or.inl ⟨_, by assumption, by assumption, ?_⟩⟩
      simp_all
    · injection h with h
      subst h
      refine ⟨by assumption, by assumption, Or.inr ⟨rfl, ?_⟩⟩
      simp_all
  · injection h with h
    subst h
    refine ⟨by assumption, by assumption, Or.inr ⟨rfl, ?_⟩⟩
    simp_all
  · exact Option.noConfusion h

/-! ## Claim theorems (first batch) -/

/-- C4: with no outstanding request, `resolve` fails with `InvariantViolation`
(and hence produces no new state). -/
theorem resolve_no_request (s : MergeSortState T) (selection : Bool)
    (h : s.prompt = none) :
    resolve s selection = Except.error "InvariantViolation" := by
  simp [resolve, h]

theorem resolve_no_request_witness :
    resolve (emptyState : MergeSortState Nat) true
      = Except.error "InvariantViolation" :=
  resolve_no_request emptyState true rfl

/-- C10: resolving an outstanding request only appends the chosen head to
`mergedList`, removes that head from the matching considered list and clears
the prompt; `moreLists`, `mergedLists` and `result` are untouched. -/
theorem applyDecision_frame (s : MergeSortState T) (a b : T) (la lb : List T)
    (d : Bool) (hp : s.prompt = some (a, b))
    (hc : s.consideredLists = some (a :: la, b :: lb)) :
    (applyDecision d s).moreLists = s.moreLists
    ∧ (applyDecision d s).mergedLists = s.mergedLists
    ∧ (applyDecision d s).result = s.result
    ∧ (applyDecision d s).prompt = none
    ∧ (d = true → (applyDecision d s).mergedList = s.mergedList ++ [a]
        ∧ (applyDecision d s).consideredLists = some (la, b :: lb))
    ∧ (d = false → (applyDecision d s).mergedList = s.mergedList ++ [b]
        ∧ (applyDecision d s).consideredLists = some (a :: la, lb)) := by
  cases d <;> simp [applyDecision, hp, hc]

theorem applyDecision_frame_witness :
    let s : MergeSortState Nat :=
      { result := none, consideredLists := some ([3], [1, 2]), moreLists := [[9]],
        mergedLists := [[4]], mergedList := [], prompt := some (3, 1) }
    (applyDecision false s).moreLists = s.moreLists
    ∧ (applyDecision false s).mergedLists = s.mergedLists
    ∧ (applyDecision false s).result = s.result
    ∧ (applyDecision false s).prompt = none
    ∧ (false = true → (applyDecision false s).mergedList = s.mergedList ++ [3]
        ∧ (applyDecision false s).consideredLists = some ([], [1, 2]))
    ∧ (false = false → (applyDecision false s).mergedList = s.mergedList ++ [1]
        ∧ (applyDecision false s).consideredLists = some ([3], [2])) :=
  applyDecision_frame _ 3 1 [] [2] false rfl rfl

/-- C9: the empty input immediately has `result = []`, the initial state is a
fixed point of the engine, and no decision request is ever issued (the prompt
stays empty and the decision count stays zero forever). -/
theorem empty_input_short_circuit (ora : Nat → T → T → Bool) (k : Nat) :
    (initMergeSort ([] : List T)).result = some []
    ∧ runMergeSort ora 0 k (initMergeSort ([] : List T), 0) = (initMergeSort [], 0)
    ∧ (runMergeSort ora 0 k (initMergeSort ([] : List T), 0)).1.prompt = none
    ∧ (runMergeSort ora 0 k (initMergeSort ([] : List T), 0)).2 = 0 := by
  have h0 : initMergeSort ([] : List T) = { emptyState with result := some [] } := by
    simp [initMergeSort]
  have hfix : runMergeSort ora 0 k (initMergeSort ([] : List T), 0)
      = (initMergeSort [], 0) := by
    rw [h0]
    exact runMergeSort_fix ora 0 _ (stepMergeSort_done ora 0 (some []) 0) k
  refine ⟨by rw [h0], hfix, ?_, ?_⟩ <;> rw [hfix, h0] <;> rfl

/-- C7: a state reached after `j` decisions-and-commits, supplied back as
`initialState`, is not re-partitioned, and continuing it for `k` commits is
identical to the naturally-executed sort continued for the same `k` commits
with the same remaining decisions. -/
theorem midpoint_resumption (ora : Nat → T → T → Bool) (items : List T)
    (j k : Nat) (s : MergeSortState T) (c : Nat)
    (hreach : runMergeSort ora items.length j (initMergeSortWith items none, 0)
      = (s, c)) :
    initMergeSortWith items (some s) = s
    ∧ runMergeSort ora items.length k (initMergeSortWith items (some s), c)
      = runMergeSort ora items.length (j + k) (initMergeSortWith items none, 0) := by
  refine ⟨rfl, ?_⟩
  rw [runMergeSort_add ora items.length j k, hreach]
  rfl

/-- C3: applying the pending decision pushes the captured snapshot (the
pre-decision state with no prompt); `undo` pops exactly that snapshot; the
engine re-derives the same request from the restored state, returning to the
pre-decision state; and re-applying any decision from there coincides with
applying it to the original pre-decision state, so the continuation is
reproduced deterministically. -/
theorem undo_roundtrip (ora : Nat → T → T → Bool) (n : Nat)
    (s : MergeSortState T) (a b : T) (la lb : List T) (c : Nat)
    (states : List (MergeSortState T))
    (hp : s.prompt = some (a, b))
    (hc : s.consideredLists = some (a :: la, b :: lb)) :
    stepUndoable ora n (s, c, states)
      = (applyDecision (ora c a b) s, c + 1, { s with prompt := none } :: states)
    ∧ undoMergeSort (applyDecision (ora c a b) s) ({ s with prompt := none } :: states)
      = some ({ s with prompt := none }, states)
    ∧ stepMergeSort ora n ({ s with prompt := none }, c) = (s, c)
    ∧ ∀ d : Bool,
        applyDecision d (stepMergeSort ora n ({ s with prompt := none }, c)).1
          = applyDecision d s := by
  obtain ⟨res, cl, ml, gl, md, pr⟩ := s
  simp only [MergeSortState.mk.injEq] at hp hc ⊢
  subst hp
  subst hc
  refine ⟨?_, ?_, ?_, ?_⟩
  · simp [stepUndoable, consideredListsEffect, mergerEffect, passCompletionEffect]
  · simp [undoMergeSort]
  · simp [stepMergeSort, consideredListsEffect, mergerEffect, passCompletionEffect]
  · intro d
    simp [stepMergeSort, consideredListsEffect, mergerEffect, passCompletionEffect]

theorem undo_roundtrip_witness :
    let s : MergeSortState Nat :=
      { result := none, consideredLists := some ([3], [1, 2]), moreLists := [[2]],
        mergedLists := [], mergedList := [], prompt := some (3, 1) }
    let ora : Nat → Nat → Nat → Bool := fun _ x y => decide (x ≤ y)
    stepUndoable ora 3 (s, 0, [])
      = (applyDecision (ora 0 3 1) s, 0 + 1, { s with prompt := none } :: [])
    ∧ undoMergeSort (applyDecision (ora 0 3 1) s) ({ s with prompt := none } :: [])
      = some ({ s with prompt := none }, [])
    ∧ stepMergeSort ora 3 ({ s with prompt := none }, 0) = (s, 0)
    ∧ ∀ d : Bool,
        applyDecision d (stepMergeSort ora 3 ({ s with prompt := none }, 0)).1
          = applyDecision d s :=
  undo_roundtrip _ 3 _ 3 1 [] [2] 0 [] rfl rfl

/-- C6: with no considered pair and an empty pass queue, a single merged list
spanning the input finalizes the sort (setting `result`, clearing `moreLists`
and `mergedLists`); otherwise a non-empty `mergedLists` is promoted to the
next pass; and no transition other than this finalization ever sets
`result`. -/
theorem pass_completion_behavior (ora : Nat → T → T → Bool) (n : Nat)
    (s : MergeSortState T) (c : Nat)
    (hcl : s.consideredLists = none) (hml : s.moreLists = []) :
    (∀ l, s.mergedLists = [l] → l.length = n →
      stepMergeSort ora n (s, c)
        = ({ s with result := some l, moreLists := [], mergedLists := [] }, c))
    ∧ (∀ l ls₀, s.mergedLists = l :: ls₀ →
        (∀ l', s.mergedLists = [l'] → l'.length ≠ n) →
      stepMergeSort ora n (s, c)
        = ({ s with moreLists := s.mergedLists, mergedLists := [] }, c))
    ∧ (∀ (s' : MergeSortState T) (c' : Nat), s'.result = none →
        (stepMergeSort ora n (s', c')).1.result ≠ none →
        s'.consideredLists = none ∧ s'.moreLists = []
          ∧ ∃ l, s'.mergedLists = [l] ∧ l.length = n) := by
  refine ⟨?_, ?_, ?_⟩
  · intro l hgl hlen
    cases hpr : s.prompt <;>
      simp [stepMergeSort, consideredListsEffect, mergerEffect, passCompletionEffect,
        hcl, hml, hgl, hlen, hpr]
  · intro l ls₀ hgl hnot
    cases ls₀ with
    | nil =>
      have hlen : l.length ≠ n := hnot l hgl
      cases hpr : s.prompt <;>
        simp [stepMergeSort, consideredListsEffect, mergerEffect, passCompletionEffect,
          hcl, hml, hgl, hlen, hpr]
    | cons l₂ rest =>
      cases hpr : s.prompt <;>
        simp [stepMergeSort, consideredListsEffect, mergerEffect, passCompletionEffect,
          hcl, hml, hgl, hpr]
  · intro s' c' hres hres'
    cases h1 : consideredListsEffect s' with
    | some s1 =>
      exfalso
      apply hres'
      simp only [stepMergeSort, h1]
      rw [consideredListsEffect_result s' s1 h1]
      exact hres
    | none =>
      cases h2 : mergerEffect s' with
      | some s2 =>
        exfalso
        apply hres'
        simp only [stepMergeSort, h1, h2]
        rw [mergerEffect_result s' s2 h2]
        exact hres
      | none =>
        cases h3 : passCompletionEffect n s' with
        | some s3 =>
          obtain ⟨hc1, hc2, hc3⟩ := passCompletionEffect_inv n s' s3 h3
          rcases hc3 with ⟨l, hl, hlen, rfl⟩ | ⟨hres3, rfl⟩
          · exact ⟨hc1, hc2, l, hl, hlen⟩
          · exfalso
            apply hres'
            simp only [stepMergeSort, h1, h2, h3]
            rw [hres3]
            exact hres
        | none =>
          exfalso
          apply hres'
          cases h4 : s'.prompt with
          | some ab =>
            obtain ⟨a, b⟩ := ab
            simp only [stepMergeSort, h1, h2, h3, h4]
            rw [applyDecision_result]
            exact hres
          | none =>
            simp only [stepMergeSort, h1, h2, h3, h4]
            exact hres

theorem pass_completion_behavior_witness :
    let s : MergeSortState Nat :=
      { result := none, consideredLists := none, moreLists := [],
        mergedLists := [[1, 2, 3]], mergedList := [], prompt := none }
    let ora : Nat → Nat → Nat → Bool := fun _ x y => decide (x ≤ y)
    stepMergeSort ora 3 (s, 1)
      = ({ s with result := some [1, 2, 3], moreLists := [], mergedLists := [] }, 1) :=
  (pass_completion_behavior _ 3 _ 1 rfl rfl).1 [1, 2, 3] rfl rfl

/-! ## The multiset invariant (C2) -/

/-- Consistency of an outstanding request with the considered pair: the
prompt, when present, shows exactly the two heads.  This holds in every
reachable state. -/
def promptConsistent (s : MergeSortState T) : Prop :=
  ∀ a b, s.prompt = some (a, b) →
    ∃ la lb, s.consideredLists = some (a :: la, b :: lb)

theorem runMergeSort_succ (ora : Nat → T → T → Bool) (n : Nat) (k : Nat)
    (p : MergeSortState T × Nat) :
    runMergeSort ora n (k + 1) p = stepMergeSort ora n (runMergeSort ora n k p) := by
  have h := runMergeSort_add ora n k 1 p
  rw [h]
  rfl

theorem consideredListsEffect_inv (s s' : MergeSortState T)
    (h : consideredListsEffect s = some s') :
    s.consideredLists = none ∧ s'.prompt = s.prompt := by
  unfold consideredListsEffect at h
  split at h <;>
    first
      | exact Option.noConfusion h
      | (injection h with h; subst h; exact ⟨by assumption, rfl⟩)

theorem mergerEffect_prompt_inv (s s' : MergeSortState T)
    (h : mergerEffect s = some s') :
    s.prompt = none ∧
    (s'.prompt = none ∨
      ∃ a la b lb, s.consideredLists = some (a :: la, b :: lb)
        ∧ s' = { s with prompt := some (a, b) }) := by
  unfold mergerEffect at h
  split at h
  · exact Option.noConfusion h
  · split at h
    · exact Option.noConfusion h
    · split at h
      · injection h with h
        subst h
        exact ⟨by assumption, Or.inr ⟨_, _, _, _, by assumption, rfl⟩⟩
      · injection h with h
        subst h
        exact ⟨by assumption, Or.inl (by assumption)⟩

theorem applyDecision_prompt (d : Bool) (s : MergeSortState T) (a b : T)
    (la lb : List T) (hp : s.prompt = some (a, b))
    (hc : s.consideredLists = some (la, lb)) :
    (applyDecision d s).prompt = none := by
  cases d <;> simp [applyDecision, hp, hc]

theorem consideredListsEffect_items (s s' : MergeSortState T)
    (h : consideredListsEffect s = some s') : stateItems s' = stateItems s := by
  unfold consideredListsEffect at h
  split at h <;>
    first
      | exact Option.noConfusion h
      | (injection h with h; subst h;
         simp only [stateItems, *, List.flatten_cons, List.flatten_nil,
           List.flatten_append, ← Multiset.coe_add, Multiset.coe_nil,
           ← Multiset.cons_coe, ← Multiset.singleton_add, List.append_nil,
           List.nil_append];
         abel)

theorem mergerEffect_items (s s' : MergeSortState T)
    (h : mergerEffect s = some s') : stateItems s' = stateItems s := by
  cases hpr : s.prompt with
  | some ab => simp [mergerEffect, hpr] at h
  | none =>
    cases hcc : s.consideredLists with
    | none => simp [mergerEffect, hpr, hcc] at h
    | some p =>
      obtain ⟨la, lb⟩ := p
      cases la with
      | nil =>
        cases lb with
        | nil =>
          simp only [mergerEffect, hpr, hcc, Option.some.injEq] at h
          subst h
          simp only [stateItems, hcc, List.flatten_cons, List.flatten_nil,
            List.flatten_append, ← Multiset.coe_add, Multiset.coe_nil,
            ← Multiset.cons_coe, ← Multiset.singleton_add, List.append_nil,
            List.nil_append]
          abel
        | cons b lb =>
          simp only [mergerEffect, hpr, hcc, Option.some.injEq] at h
          subst h
          simp only [stateItems, hcc, List.flatten_cons, List.flatten_nil,
            List.flatten_append, ← Multiset.coe_add, Multiset.coe_nil,
            ← Multiset.cons_coe, ← Multiset.singleton_add, List.append_nil,
            List.nil_append]
          abel
      | cons a la =>
        cases lb with
        | nil =>
          simp only [mergerEffect, hpr, hcc, Option.some.injEq] at h
          subst h
          simp only [stateItems, hcc, List.flatten_cons, List.flatten_nil,
            List.flatten_append, ← Multiset.coe_add, Multiset.coe_nil,
            ← Multiset.cons_coe, ← Multiset.singleton_add, List.append_nil,
            List.nil_append]
          abel
        | cons b lb =>
          simp only [mergerEffect, hpr, hcc, Option.some.injEq] at h
          subst h
          simp [stateItems, hcc]

theorem applyDecision_items (s : MergeSortState T) (a b : T) (la lb : List T)
    (d : Bool) (hp : s.prompt = some (a, b))
    (hc : s.consideredLists = some (a :: la, b :: lb)) :
    stateItems (applyDecision d s) = stateItems s := by
  have ht : applyDecision true s
      = { s with mergedList := s.mergedList ++ [a], consideredLists := some (la, b :: lb), prompt := none } := by
    simp [applyDecision, hp, hc]
  have hf : applyDecision false s
      = { s with mergedList := s.mergedList ++ [b], consideredLists := some (a :: la, lb), prompt := none } := by
    simp [applyDecision, hp, hc]
  cases d
  · rw [hf]
    simp only [stateItems, hc, List.flatten_cons, List.flatten_nil,
      List.flatten_append, ← Multiset.coe_add, Multiset.coe_nil,
      ← Multiset.cons_coe, ← Multiset.singleton_add, List.append_nil,
      List.nil_append]
    abel
  · rw [ht]
    simp only [stateItems, hc, List.flatten_cons, List.flatten_nil,
      List.flatten_append, ← Multiset.coe_add, Multiset.coe_nil,
      ← Multiset.cons_coe, ← Multiset.singleton_add, List.append_nil,
      List.nil_append]
    abel

theorem stepMergeSort_result_none (ora : Nat → T → T → Bool) (n : Nat)
    (s : MergeSortState T) (c : Nat)
    (h : (stepMergeSort ora n (s, c)).1.result = none) : s.result = none := by
  cases h1 : consideredListsEffect s with
  | some s1 =>
    rw [show (stepMergeSort ora n (s, c)).1 = s1 by simp [stepMergeSort, h1]] at h
    rw [consideredListsEffect_result s s1 h1] at h
    exact h
  | none =>
    cases h2 : mergerEffect s with
    | some s2 =>
      rw [show (stepMergeSort ora n (s, c)).1 = s2 by simp [stepMergeSort, h1, h2]] at h
      rw [mergerEffect_result s s2 h2] at h
      exact h
    | none =>
      cases h3 : passCompletionEffect n s with
      | some s3 =>
        rw [show (stepMergeSort ora n (s, c)).1 = s3 by
          simp [stepMergeSort, h1, h2, h3]] at h
        obtain ⟨_, _, hc3⟩ := passCompletionEffect_inv n s s3 h3
        rcases hc3 with ⟨l, _, _, rfl⟩ | ⟨hres3, rfl⟩
        · simp at h
        · rw [hres3] at h
          exact h
      | none =>
        cases h4 : s.prompt with
        | some ab =>
          obtain ⟨a, b⟩ := ab
          rw [show (stepMergeSort ora n (s, c)).1 = applyDecision (ora c a b) s by
            simp [stepMergeSort, h1, h2, h3, h4]] at h
          rw [applyDecision_result] at h
          exact h
        | none =>
          rw [show (stepMergeSort ora n (s, c)).1 = s by
            simp [stepMergeSort, h1, h2, h3, h4]] at h
          exact h

theorem stepMergeSort_promptConsistent (ora : Nat → T → T → Bool) (n : Nat)
    (s : MergeSortState T) (c : Nat) (hw : promptConsistent s) :
    promptConsistent (stepMergeSort ora n (s, c)).1 := by
  cases h1 : consideredListsEffect s with
  | some s1 =>
    rw [show (stepMergeSort ora n (s, c)).1 = s1 by simp [stepMergeSort, h1]]
    obtain ⟨hnone, hpr⟩ := consideredListsEffect_inv s s1 h1
    intro a b hab
    rw [hpr] at hab
    obtain ⟨la, lb, hcc⟩ := hw a b hab
    rw [hnone] at hcc
    exact Option.noConfusion hcc
  | none =>
    cases h2 : mergerEffect s with
    | some s2 =>
      rw [show (stepMergeSort ora n (s, c)).1 = s2 by simp [stepMergeSort, h1, h2]]
      obtain ⟨hpn, hcase⟩ := mergerEffect_prompt_inv s s2 h2
      rcases hcase with hnone | ⟨a, la, b, lb, hcc, rfl⟩
      · intro a b hab
        rw [hnone] at hab
        exact Option.noConfusion hab
      · intro a' b' hab
        simp only at hab
        injection hab with hab
        obtain ⟨rfl, rfl⟩ := Prod.mk.injEq .. ▸ And.intro (congrArg Prod.fst hab) (congrArg Prod.snd hab)
        exact ⟨la, lb, hcc⟩
    | none =>
      cases h3 : passCompletionEffect n s with
      | some s3 =>
        rw [show (stepMergeSort ora n (s, c)).1 = s3 by simp [stepMergeSort, h1, h2, h3]]
        obtain ⟨hc1, _, hc3⟩ := passCompletionEffect_inv n s s3 h3
        have hpn : s.prompt = none := by
          cases h4 : s.prompt with
          | none => rfl
          | some ab =>
            obtain ⟨a, b⟩ := ab
            obtain ⟨la, lb, hcc⟩ := hw a b h4
            rw [hc1] at hcc
            exact Option.noConfusion hcc
        rcases hc3 with ⟨l, _, _, rfl⟩ | ⟨_, rfl⟩ <;>
          · intro a b hab
            simp only [hpn] at hab
            exact Option.noConfusion hab
      | none =>
        cases h4 : s.prompt with
        | some ab =>
          obtain ⟨a, b⟩ := ab
          rw [show (stepMergeSort ora n (s, c)).1 = applyDecision (ora c a b) s by
            simp [stepMergeSort, h1, h2, h3, h4]]
          obtain ⟨la, lb, hcc⟩ := hw a b h4
          intro a' b' hab
          rw [applyDecision_prompt (ora c a b) s a b _ _ h4 hcc] at hab
          exact Option.noConfusion hab
        | none =>
          rw [show (stepMergeSort ora n (s, c)).1 = s by
            simp [stepMergeSort, h1, h2, h3, h4]]
          exact hw

theorem stepMergeSort_items (ora : Nat → T → T → Bool) (n : Nat)
    (s : MergeSortState T) (c : Nat) (hw : promptConsistent s)
    (hres : (stepMergeSort ora n (s, c)).1.result = none) :
    stateItems (stepMergeSort ora n (s, c)).1 = stateItems s := by
  cases h1 : consideredListsEffect s with
  | some s1 =>
    rw [show (stepMergeSort ora n (s, c)).1 = s1 by simp [stepMergeSort, h1]]
    exact consideredListsEffect_items s s1 h1
  | none =>
    cases h2 : mergerEffect s with
    | some s2 =>
      rw [show (stepMergeSort ora n (s, c)).1 = s2 by simp [stepMergeSort, h1, h2]]
      exact mergerEffect_items s s2 h2
    | none =>
      cases h3 : passCompletionEffect n s with
      | some s3 =>
        rw [show (stepMergeSort ora n (s, c)).1 = s3 by
          simp [stepMergeSort, h1, h2, h3]] at hres ⊢
        obtain ⟨hc1, hc2, hc3⟩ := passCompletionEffect_inv n s s3 h3
        rcases hc3 with ⟨l, _, _, rfl⟩ | ⟨_, rfl⟩
        · simp at hres
        · simp only [stateItems, hc1, hc2, List.flatten_cons, List.flatten_nil,
            List.flatten_append, ← Multiset.coe_add, Multiset.coe_nil,
            ← Multiset.cons_coe, ← Multiset.singleton_add, List.append_nil,
            List.nil_append]
          abel
      | none =>
        cases h4 : s.prompt with
        | some ab =>
          obtain ⟨a, b⟩ := ab
          rw [show (stepMergeSort ora n (s, c)).1 = applyDecision (ora c a b) s by
            simp [stepMergeSort, h1, h2, h3, h4]]
          obtain ⟨la, lb, hcc⟩ := hw a b h4
          exact applyDecision_items s a b la lb (ora c a b) h4 hcc
        | none =>
          rw [show (stepMergeSort ora n (s, c)).1 = s by
            simp [stepMergeSort, h1, h2, h3, h4]]

theorem runMergeSort_invariant (ora : Nat → T → T → Bool) (items : List T) (k : Nat) :
    promptConsistent (runMergeSort ora items.length k (initMergeSort items, 0)).1
    ∧ ((runMergeSort ora items.length k (initMergeSort items, 0)).1.result = none →
        stateItems (runMergeSort ora items.length k (initMergeSort items, 0)).1
          = (items : Multiset T)) := by
  induction k with
  | zero =>
    constructor
    · intro a b hab
      by_cases h : items.length = 0 <;>
        simp [runMergeSort, initMergeSort, h, emptyState] at hab
    · intro hres
      by_cases h : items.length = 0
      · simp [runMergeSort, initMergeSort, h, emptyState] at hres
      · simp [runMergeSort, initMergeSort, h, emptyState, stateItems,
          flatten_map_singleton]
  | succ k ih =>
    rw [runMergeSort_succ]
    set q := runMergeSort ora items.length k (initMergeSort items, 0) with hq
    have hq2 : stepMergeSort ora items.length q = stepMergeSort ora items.length (q.1, q.2) := by
      rfl
    constructor
    · rw [hq2]
      exact stepMergeSort_promptConsistent ora items.length q.1 q.2 ih.1
    · intro hres
      rw [hq2] at hres ⊢
      rw [stepMergeSort_items ora items.length q.1 q.2 ih.1 hres]
      exact ih.2 (stepMergeSort_result_none ora items.length q.1 q.2 hres)

/-- C2: in every reachable state whose `result` is still undefined, the items
spread across `moreLists`, `consideredLists`, `mergedList` and `mergedLists`
form exactly the input multiset, and each commit that leaves `result`
undefined preserves that multiset. -/
theorem multiset_invariant (ora : Nat → T → T → Bool) (items : List T) (k : Nat) :
    ((runMergeSort ora items.length k (initMergeSort items, 0)).1.result = none →
      stateItems (runMergeSort ora items.length k (initMergeSort items, 0)).1
        = (items : Multiset T))
    ∧ ((runMergeSort ora items.length (k + 1) (initMergeSort items, 0)).1.result = none →
      stateItems (runMergeSort ora items.length (k + 1) (initMergeSort items, 0)).1
        = stateItems (runMergeSort ora items.length k (initMergeSort items, 0)).1) := by
  refine ⟨(runMergeSort_invariant ora items k).2, ?_⟩
  intro hres
  rw [runMergeSort_succ] at hres ⊢
  set q := runMergeSort ora items.length k (initMergeSort items, 0) with hq
  have hq2 : stepMergeSort ora items.length q = stepMergeSort ora items.length (q.1, q.2) := by
    rfl
  rw [hq2] at hres ⊢
  exact stepMergeSort_items ora items.length q.1 q.2
    (runMergeSort_invariant ora items k).1 hres

theorem multiset_invariant_witness :
    ((runMergeSort (fun _ x y => decide (x ≤ y)) 3 2 (initMergeSort [3, 1, 2], 0)).1.result
        = none →
      stateItems (runMergeSort (fun _ x y => decide (x ≤ y)) 3 2
          (initMergeSort [3, 1, 2], 0)).1 = ([3, 1, 2] : Multiset Nat))
    ∧ ((runMergeSort (fun _ x y => decide (x ≤ y)) 3 3 (initMergeSort [3, 1, 2], 0)).1.result
        = none →
      stateItems (runMergeSort (fun _ x y => decide (x ≤ y)) 3 3
          (initMergeSort [3, 1, 2], 0)).1
        = stateItems (runMergeSort (fun _ x y => decide (x ≤ y)) 3 2
          (initMergeSort [3, 1, 2], 0)).1) :=
  multiset_invariant (fun _ x y => decide (x ≤ y)) [3, 1, 2] 2

theorem midpoint_resumption_witness :
    let s : MergeSortState Nat := { result := none, consideredLists := none, moreLists := [[2]], mergedLists := [[1, 3]], mergedList := [], prompt := none }
    initMergeSortWith [3, 1, 2] (some s) = s
    ∧ runMergeSort (fun _ x y => decide (x ≤ y)) ([3, 1, 2] : List Nat).length 5
        (initMergeSortWith [3, 1, 2] (some s), 1)
      = runMergeSort (fun _ x y => decide (x ≤ y)) ([3, 1, 2] : List Nat).length (4 + 5)
        (initMergeSortWith [3, 1, 2] none, 0) :=
  midpoint_resumption (fun _ x y => decide (x ≤ y)) [3, 1, 2] 4 5
    { result := none, consideredLists := none, moreLists := [[2]], mergedLists := [[1, 3]], mergedList := [], prompt := none } 1 (by decide)

/-- C1: on distinct items, answering every request according to a total order
terminates the sort with `result` equal to the items sorted ascending by that
order (stated via `List.mergeSort`, the canonical ascending sort). -/
theorem sort_follows_total_order [LinearOrder T] (items : List T)
    (hnd : items.Nodup) (hne : items ≠ []) :
    ∃ k, (runMergeSort (leOracle (T := T)) items.length k
          (initMergeSort items, 0)).1.result = some items.mergeSort
      ∧ ∀ j, runMergeSort (leOracle (T := T)) items.length (k + j)
            (initMergeSort items, 0)
          = runMergeSort (leOracle (T := T)) items.length k
            (initMergeSort items, 0) := by
  obtain ⟨K, hK⟩ := runMergeSort_init (leOracle (T := T)) items hne
  have hflat : (items.map (fun v => [v])).flatten.length = items.length := by
    rw [flatten_map_singleton]
  have hnez : items.map (fun v => [v]) ≠ [] := fun hmap => hne (by simpa using hmap)
  obtain ⟨L, hL⟩ := passesIdx_isSome (leOracle (T := T)) items.length 0 _ hnez hflat
  have hperm : L.Perm items := by
    have hp := passesIdx_perm (leOracle (T := T)) items.length 0 _ L hL
    rwa [flatten_map_singleton] at hp
  have hsorted : L.Sorted (· ≤ ·) := by
    refine passesIdx_sorted items.length 0 _ L ?_ hL
    intro l hl
    simp only [List.mem_map] at hl
    obtain ⟨v, _, rfl⟩ := hl
    simp
  have hLeq : L = items.mergeSort := by
    refine List.eq_of_perm_of_sorted
      (hperm.trans (List.mergeSort_perm items _).symm) hsorted ?_
    exact List.sorted_mergeSort' items
  refine ⟨K, ?_, ?_⟩
  · rw [hK]
    simp [hL, hLeq]
  · intro j
    rw [runMergeSort_add (leOracle (T := T)) items.length K j, hK]
    exact runMergeSort_fix _ _ _ (stepMergeSort_done _ _ _ _) j

theorem sort_follows_total_order_witness :
    ∃ k, (runMergeSort (leOracle (T := Nat)) ([3, 1, 2] : List Nat).length k
          (initMergeSort [3, 1, 2], 0)).1.result
        = some ([3, 1, 2] : List Nat).mergeSort
      ∧ ∀ j, runMergeSort (leOracle (T := Nat)) ([3, 1, 2] : List Nat).length (k + j)
            (initMergeSort [3, 1, 2], 0)
          = runMergeSort (leOracle (T := Nat)) ([3, 1, 2] : List Nat).length k
            (initMergeSort [3, 1, 2], 0) :=
  sort_follows_total_order [3, 1, 2] (by decide) (by decide)

/-- C8: for every input and every sequence of decision answers, the number of
decisions applied after any number of commits never exceeds
`n * ⌈log₂ n⌉` — and since every issued request is resolved before the next
one is issued, this bounds the total number of requests issued. -/
theorem comparison_bound (ora : Nat → T → T → Bool) (items : List T) (k : Nat) :
    (runMergeSort ora items.length k (initMergeSort items, 0)).2
      ≤ items.length * Nat.clog 2 items.length := by
  by_cases hne : items = []
  · subst hne
    have h0 : initMergeSort ([] : List T) = { emptyState with result := some [] } := by
      simp [initMergeSort]
    rw [show (([] : List T)).length = 0 from rfl, h0,
      runMergeSort_fix ora 0 _ (stepMergeSort_done ora 0 (some []) 0) k]
    simp
  · obtain ⟨K, hK⟩ := runMergeSort_init ora items hne
    have hlenmap : (items.map (fun v => [v])).length = items.length :=
      List.length_map _ _
    have hbound : (passesIdx ora items.length 0 (items.map fun v => [v])).2
        ≤ items.length * Nat.clog 2 items.length := by
      have hb := passesIdx_counter_le ora items.length 0 (items.map fun v => [v])
        (by rw [flatten_map_singleton])
      rw [hlenmap] at hb
      simpa using hb
    rcases le_or_lt k K with hk | hk
    · have h1 : runMergeSort ora items.length K (initMergeSort items, 0)
          = runMergeSort ora items.length (K - k)
              (runMergeSort ora items.length k (initMergeSort items, 0)) := by
        rw [← runMergeSort_add]
        congr 1
        omega
      have h2 := runMergeSort_counter ora items.length (K - k)
        (runMergeSort ora items.length k (initMergeSort items, 0))
      rw [← h1, hK] at h2
      exact le_trans h2 hbound
    · have h1 : runMergeSort ora items.length k (initMergeSort items, 0)
          = runMergeSort ora items.length (k - K)
              (runMergeSort ora items.length K (initMergeSort items, 0)) := by
        rw [← runMergeSort_add]
        congr 1
        omega
      rw [h1, hK, runMergeSort_fix ora items.length _
        (stepMergeSort_done ora items.length _ _) (k - K)]
      exact hbound

/-! ## The variant engine: execution traces -/

theorem finalizeEffect_none (n : Nat) (s : MergeSortState T)
    (h : ∀ l, s.moreLists = [l] → l.length ≠ n) : finalizeEffect n s = none := by
  unfold finalizeEffect
  split
  · rename_i l heq
    exact if_neg (h l heq)
  · rfl

theorem variant_merge_run [DecidableEq T] (ora : Nat → T → T → Bool) (n : Nat) :
    ∀ (la lb : List T) (res : Option (List T)) (ml gls : List (List T))
      (acc : List T) (c : Nat), (∀ l, ml = [l] → l.length ≠ n) →
    ∃ k, runVariant ora n k
        ({ result := res, consideredLists := some (la, lb), moreLists := ml,
           mergedLists := gls, mergedList := acc, prompt := none }, c)
      = ({ result := res, consideredLists := none, moreLists := ml,
           mergedLists := gls ++ [acc ++ (mergeIdx ora c la lb).1],
           mergedList := [], prompt := none }, (mergeIdx ora c la lb).2) := by
  intro la
  induction la with
  | nil =>
    intro lb res ml gls acc c hfin
    have hf : ∀ (r : Option (List T)) (cl : Option (List T × List T))
        (gl : List (List T)) (md : List T) (pr : Option (T × T)),
        finalizeEffect n ⟨r, cl, ml, gl, md, pr⟩ = none :=
      fun r cl gl md pr => finalizeEffect_none n _ (fun l hl => hfin l hl)
    refine ⟨1, ?_⟩
    cases lb with
    | nil =>
      simp [runVariant, stepVariant, consideredListsEffect, mergerEffect,
        promotionEffect, mergeIdx, hf]
    | cons b lb =>
      simp [runVariant, stepVariant, consideredListsEffect, mergerEffect,
        promotionEffect, mergeIdx, hf]
  | cons a la ih =>
    intro lb
    induction lb with
    | nil =>
      intro res ml gls acc c hfin
      have hf : ∀ (r : Option (List T)) (cl : Option (List T × List T))
          (gl : List (List T)) (md : List T) (pr : Option (T × T)),
          finalizeEffect n ⟨r, cl, ml, gl, md, pr⟩ = none :=
        fun r cl gl md pr => finalizeEffect_none n _ (fun l hl => hfin l hl)
      refine ⟨1, ?_⟩
      simp [runVariant, stepVariant, consideredListsEffect, mergerEffect,
        promotionEffect, mergeIdx, hf]
    | cons b lb ihb =>
      intro res ml gls acc c hfin
      have hf : ∀ (r : Option (List T)) (cl : Option (List T × List T))
          (gl : List (List T)) (md : List T) (pr : Option (T × T)),
          finalizeEffect n ⟨r, cl, ml, gl, md, pr⟩ = none :=
        fun r cl gl md pr => finalizeEffect_none n _ (fun l hl => hfin l hl)
      have h1 : runVariant ora n 1
          ({ result := res, consideredLists := some (a :: la, b :: lb), moreLists := ml,
             mergedLists := gls, mergedList := acc, prompt := none }, c)
        = ({ result := res, consideredLists := some (a :: la, b :: lb), moreLists := ml,
             mergedLists := gls, mergedList := acc, prompt := some (a, b) }, c) := by
        simp [runVariant, stepVariant, consideredListsEffect, mergerEffect,
          promotionEffect, hf]
      by_cases hab : ora c a b = true
      · obtain ⟨k, hk⟩ := ih (b :: lb) res ml gls (acc ++ [a]) (c + 1) hfin
        refine ⟨1 + (1 + k), ?_⟩
        refine runVariant_trans ora n h1 ?_
        have h2 : runVariant ora n 1
            ({ result := res, consideredLists := some (a :: la, b :: lb), moreLists := ml,
               mergedLists := gls, mergedList := acc, prompt := some (a, b) }, c)
          = ({ result := res, consideredLists := some (la, b :: lb), moreLists := ml,
               mergedLists := gls, mergedList := acc ++ [a], prompt := none }, c + 1) := by
          simp [runVariant, stepVariant, consideredListsEffect, mergerEffect,
            promotionEffect, applyDecision, hab, hf]
        refine runVariant_trans ora n h2 ?_
        refine hk.trans ?_
        simp [mergeIdx, hab]
      · obtain ⟨k, hk⟩ := ihb res ml gls (acc ++ [b]) (c + 1) hfin
        refine ⟨1 + (1 + k), ?_⟩
        refine runVariant_trans ora n h1 ?_
        have h2 : runVariant ora n 1
            ({ result := res, consideredLists := some (a :: la, b :: lb), moreLists := ml,
               mergedLists := gls, mergedList := acc, prompt := some (a, b) }, c)
          = ({ result := res, consideredLists := some (a :: la, lb), moreLists := ml,
               mergedLists := gls, mergedList := acc ++ [b], prompt := none }, c + 1) := by
          simp [runVariant, stepVariant, consideredListsEffect, mergerEffect,
            promotionEffect, applyDecision, hab, hf]
        refine runVariant_trans ora n h2 ?_
        refine hk.trans ?_
        simp [mergeIdx, hab]

theorem variant_pass_run [DecidableEq T] (ora : Nat → T → T → Bool) (n : Nat) :
    ∀ (ls : List (List T)) (res : Option (List T)) (gls : List (List T)) (c : Nat),
      (∀ l ∈ ls, l.length ≠ n) →
    ∃ k, runVariant ora n k
        ({ result := res, consideredLists := none, moreLists := ls,
           mergedLists := gls, mergedList := [], prompt := none }, c)
      = ({ result := res, consideredLists := none, moreLists := [],
           mergedLists := gls ++ (onePassIdx ora c ls).1, mergedList := [],
           prompt := none }, (onePassIdx ora c ls).2)
  | [], res, gls, c, hlen => ⟨0, by simp [runVariant, onePassIdx]⟩
  | [l], res, gls, c, hlen => ⟨1, by
      have hf : finalizeEffect n
          ({ result := res, consideredLists := none, moreLists := [l],
             mergedLists := gls, mergedList := [], prompt := none } : MergeSortState T)
          = none :=
        finalizeEffect_none n _ (by
          intro l' hl'
          simp only at hl'
          injection hl' with hl'
          exact hl' ▸ hlen l (by simp))
      simp [runVariant, stepVariant, consideredListsEffect, mergerEffect,
        promotionEffect, onePassIdx, hf]⟩
  | la :: lb :: rest, res, gls, c, hlen => by
    have h1 : runVariant ora n 1
        ({ result := res, consideredLists := none, moreLists := la :: lb :: rest,
           mergedLists := gls, mergedList := [], prompt := none }, c)
      = ({ result := res, consideredLists := some (la, lb), moreLists := rest,
           mergedLists := gls, mergedList := [], prompt := none }, c) := by
      simp [runVariant, stepVariant, consideredListsEffect, mergerEffect,
        promotionEffect, finalizeEffect]
    obtain ⟨k₁, hk₁⟩ := variant_merge_run ora n la lb res rest gls [] c
      (fun l hl => hlen l (by simp [hl]))
    obtain ⟨k₂, hk₂⟩ := variant_pass_run ora n rest res
      (gls ++ [[] ++ (mergeIdx ora c la lb).1]) (mergeIdx ora c la lb).2
      (fun l hl => hlen l (by simp [hl]))
    refine ⟨1 + (k₁ + k₂),
      runVariant_trans ora n h1 (runVariant_trans ora n hk₁ (hk₂.trans ?_))⟩
    simp [onePassIdx, List.append_assoc]

theorem length_le_flatten (l : List T) (ls : List (List T)) (h : l ∈ ls) :
    l.length ≤ ls.flatten.length := by
  induction ls with
  | nil => simp at h
  | cons a tail ih =>
    rcases List.mem_cons.mp h with rfl | h
    · simp
    · have := ih h
      simp only [List.flatten_cons, List.length_append]
      omega

theorem mem_length_lt (ls : List (List T)) (l : List T) (h2 : 2 ≤ ls.length)
    (hnil : [] ∉ ls) (hl : l ∈ ls) : l.length < ls.flatten.length := by
  cases ls with
  | nil => simp at hl
  | cons a tail =>
    cases tail with
    | nil => simp at h2
    | cons b tail2 =>
      rcases List.mem_cons.mp hl with rfl | hmem
      · have hb : b ≠ [] := fun hb => hnil (by simp [hb])
        have : 1 ≤ b.length := by
          cases b with
          | nil => exact absurd rfl hb
          | cons x xs => simp
        simp only [List.flatten_cons, List.length_append]
        omega
      · have ha : a ≠ [] := fun ha => hnil (by simp [ha])
        have h1 : 1 ≤ a.length := by
          cases a with
          | nil => exact absurd rfl ha
          | cons x xs => simp
        have := length_le_flatten l (b :: tail2) hmem
        simp only [List.flatten_cons, List.length_append] at this ⊢
        omega

theorem onePassIdx_not_nil_mem (ora : Nat → T → T → Bool) :
    ∀ (c : Nat) (ls : List (List T)), [] ∉ ls → [] ∉ (onePassIdx ora c ls).1 := by
  intro c ls
  induction c, ls using onePassIdx.induct ora with
  | case1 c =>
    intro _ h
    simp [onePassIdx] at h
  | case2 c l =>
    intro hn h
    simp [onePassIdx] at h
    exact hn (h ▸ List.mem_singleton_self _)
  | case3 c la lb rest m ih =>
    intro hn h
    simp only [onePassIdx, List.mem_cons] at h
    rcases h with h | h
    · have hlen := mergeIdx_length ora c la lb
      rw [← h] at hlen
      simp only [List.length_nil] at hlen
      have hla : la ≠ [] := fun hh => hn (by simp [hh])
      cases la with
      | nil => exact hla rfl
      | cons x xs =>
        simp only [List.length_cons] at hlen
        omega
    · exact ih (fun hh => hn (by simp [hh])) h

theorem stepVariant_done [DecidableEq T] (ora : Nat → T → T → Bool) (n : Nat)
    (L : List T) (gl : List (List T)) (c : Nat) :
    stepVariant ora n ({ emptyState with result := some L, mergedLists := gl }, c)
      = ({ emptyState with result := some L, mergedLists := gl }, c) := rfl

theorem variant_passes_run [DecidableEq T] (ora : Nat → T → T → Bool) (n : Nat) :
    ∀ (ls : List (List T)), ls ≠ [] → [] ∉ ls → ls.flatten.length = n →
    ∀ (c : Nat),
    ∃ k, runVariant ora n k
        ({ result := none, consideredLists := none, moreLists := ls,
           mergedLists := [], mergedList := [], prompt := none }, c)
      = ({ emptyState with result := (passesIdx ora n c ls).1, mergedLists := (passesIdx ora n c ls).1.toList },
         (passesIdx ora n c ls).2)
  | [], hne, hnil, h, c => absurd rfl hne
  | [l], hne, hnil, h, c => by
    have hl : l.length = n := by simpa using h
    refine ⟨1, ?_⟩
    rw [passesIdx_single]
    simp [hl, runVariant, stepVariant, consideredListsEffect, mergerEffect,
      promotionEffect, finalizeEffect, emptyState]
  | l₁ :: l₂ :: rest, hne, hnil, h, c => by
    have h2 : 2 ≤ (l₁ :: l₂ :: rest).length := by simp
    have hlen := onePassIdx_length ora c (l₁ :: l₂ :: rest)
    have hflat : (onePassIdx ora c (l₁ :: l₂ :: rest)).1.flatten.length = n := by
      rw [onePassIdx_flatten_length]
      exact h
    have hmem : ∀ l ∈ l₁ :: l₂ :: rest, l.length ≠ n := by
      intro l hl
      have := mem_length_lt (l₁ :: l₂ :: rest) l h2 hnil hl
      omega
    obtain ⟨k₁, hk₁⟩ := variant_pass_run ora n (l₁ :: l₂ :: rest) none [] c hmem
    rw [passesIdx_step ora n c _ h2]
    have hnil' : [] ∉ (onePassIdx ora c (l₁ :: l₂ :: rest)).1 :=
      onePassIdx_not_nil_mem ora c _ hnil
    rcases hsp : (onePassIdx ora c (l₁ :: l₂ :: rest)).1 with _ | ⟨l', _ | ⟨l'', rest'⟩⟩
    · rw [hsp] at hlen
      simp at hlen
      omega
    · have hl' : l'.length = n := by
        rw [hsp] at hflat
        simpa using hflat
      rw [hsp] at hk₁
      rw [passesIdx_single]
      have hpr : runVariant ora n 2
          ({ result := none, consideredLists := none, moreLists := [],
             mergedLists := [] ++ [l'], mergedList := [], prompt := none },
           (onePassIdx ora c (l₁ :: l₂ :: rest)).2)
        = ({ emptyState with result := some l', mergedLists := [l'] },
           (onePassIdx ora c (l₁ :: l₂ :: rest)).2) := by
        simp [hl', runVariant, stepVariant, consideredListsEffect, mergerEffect,
          promotionEffect, finalizeEffect, emptyState]
      refine ⟨k₁ + 2, runVariant_trans ora n hk₁ ?_⟩
      rw [hpr]
      simp [hl']
    · have hlt : (l' :: l'' :: rest').length < (l₁ :: l₂ :: rest).length := by
        rw [hsp] at hlen
        simp only [List.length_cons] at hlen ⊢
        omega
      rw [hsp] at hk₁ hflat hnil'
      obtain ⟨k₂, hk₂⟩ := variant_passes_run ora n (l' :: l'' :: rest')
        (by simp) hnil' hflat (onePassIdx ora c (l₁ :: l₂ :: rest)).2
      have h1 : runVariant ora n 1
          ({ result := none, consideredLists := none, moreLists := [],
             mergedLists := [] ++ l' :: l'' :: rest', mergedList := [],
             prompt := none }, (onePassIdx ora c (l₁ :: l₂ :: rest)).2)
        = ({ result := none, consideredLists := none, moreLists := l' :: l'' :: rest',
             mergedLists := [], mergedList := [],
             prompt := none }, (onePassIdx ora c (l₁ :: l₂ :: rest)).2) := by
        simp [runVariant, stepVariant, consideredListsEffect, mergerEffect,
          promotionEffect, finalizeEffect]
      exact ⟨k₁ + (1 + k₂),
        runVariant_trans ora n hk₁ (runVariant_trans ora n h1 hk₂)⟩
termination_by ls => ls.length
decreasing_by
  exact hlt

/-- Master run theorem for the variant engine: from the same initial state it
reaches a finished state carrying the same functional-model result (the final
list also remains in `mergedLists`, which the variant never clears). -/
theorem runVariant_init [DecidableEq T] (ora : Nat → T → T → Bool) (items : List T)
    (hne : items ≠ []) :
    ∃ k, runVariant ora items.length k (initMergeSort items, 0)
      = ({ emptyState with result := (passesIdx ora items.length 0 (items.map (fun v => [v]))).1, mergedLists := (passesIdx ora items.length 0 (items.map (fun v => [v]))).1.toList },
         (passesIdx ora items.length 0 (items.map (fun v => [v]))).2) := by
  have hne' : ¬items.length = 0 := fun h => hne (List.length_eq_zero.mp h)
  have hinit : initMergeSort items
      = { result := none, consideredLists := none,
          moreLists := items.map (fun v => [v]), mergedLists := [],
          mergedList := [], prompt := none } := by
    simp [initMergeSort, emptyState, hne']
  rw [hinit]
  exact variant_passes_run ora items.length (items.map (fun v => [v]))
    (fun hmap => hne (by simpa using hmap))
    (by simp)
    (by rw [flatten_map_singleton]) 0

/-- C5: the canonical engine and the variant reimplementation are equivalent:
for every input array and every sequence of decisions both terminate (their
final states are fixed points) with the same final `result`. -/
theorem engines_equivalent [DecidableEq T] (ora : Nat → T → T → Bool)
    (items : List T) :
    ∃ k₁ k₂ L,
      (runMergeSort ora items.length k₁ (initMergeSort items, 0)).1.result = some L
      ∧ (runVariant ora items.length k₂ (initMergeSort items, 0)).1.result = some L
      ∧ (∀ j, runMergeSort ora items.length (k₁ + j) (initMergeSort items, 0)
            = runMergeSort ora items.length k₁ (initMergeSort items, 0))
      ∧ (∀ j, runVariant ora items.length (k₂ + j) (initMergeSort items, 0)
            = runVariant ora items.length k₂ (initMergeSort items, 0)) := by
  by_cases hne : items = []
  · subst hne
    have h0 : initMergeSort ([] : List T) = { emptyState with result := some [] } := by
      simp [initMergeSort]
    refine ⟨0, 0, [], ?_, ?_, ?_, ?_⟩
    · rw [h0]
      rfl
    · rw [h0]
      rfl
    · intro j
      rw [Nat.zero_add, h0]
      exact runMergeSort_fix ora 0 _ (stepMergeSort_done ora 0 (some []) 0) j
    · intro j
      rw [Nat.zero_add, h0]
      exact runVariant_fix ora 0 _ (stepVariant_done ora 0 [] [] 0) j
  · obtain ⟨K₁, hK₁⟩ := runMergeSort_init ora items hne
    obtain ⟨K₂, hK₂⟩ := runVariant_init ora items hne
    obtain ⟨L, hL⟩ := passesIdx_isSome ora items.length 0 (items.map (fun v => [v]))
      (fun hmap => hne (by simpa using hmap)) (by rw [flatten_map_singleton])
    refine ⟨K₁, K₂, L, ?_, ?_, ?_, ?_⟩
    · rw [hK₁]
      simpa using hL
    · rw [hK₂]
      simpa using hL
    · intro j
      rw [runMergeSort_add, hK₁, runMergeSort_fix ora items.length _
        (stepMergeSort_done ora items.length _ _) j]
    · intro j
      rw [runVariant_add, hK₂, hL, runVariant_fix ora items.length _
        (stepVariant_done ora items.length L _ _) j]

end JankRank
